import Mathlib

/-!
Shallow embedding of the mutation-contextualiser pipeline (src/src/App.jsx).

JS strings are modelled as `List Char`; JS objects used as count tables are
modelled as association lists with unique keys; in-bounds-checked character
reads are modelled with `Option`-returning indexing so that unguarded reads
are observable as `none`.
-/

set_option maxRecDepth 10000

namespace Contextualise

/-- Whitespace recognised by JS `String.prototype.trim` (ASCII whitespace
plus NBSP and BOM; exotic Unicode space separators are omitted, none of the
claims depends on them). -/
def isWs (c : Char) : Bool :=
  c == ' ' || c == '\t' || c == '\n' || c == '\r' ||
    c.toNat == 11 || c.toNat == 12 || c.toNat == 160 || c.toNat == 65279

/-- Model of JS `trim`: drop leading and trailing whitespace. -/
def jsTrim (s : List Char) : List Char :=
  ((s.dropWhile isWs).reverse.dropWhile isWs).reverse

/-- Model of JS `toUpperCase` at the character level (ASCII case mapping;
no non-ASCII character uppercases into the A/C/G/T/digit alphabet the
pipeline inspects). -/
def jsToUpper (c : Char) : Char :=
  if 'a' ≤ c ∧ c ≤ 'z' then Char.ofNat (c.toNat - 32) else c

/-- Model of JS `String.prototype.split` with a single-character separator. -/
def splitSep (sep : Char) : List Char → List (List Char)
  | [] => [[]]
  | c :: rest =>
    if c = sep then [] :: splitSep sep rest
    else
      match splitSep sep rest with
      | [] => [[c]]
      | l :: ls => (c :: l) :: ls

/-- Model of JS `Array.prototype.join` with a single-character separator. -/
def joinSep (sep : Char) : List (List Char) → List Char
  | [] => []
  | [l] => l
  | l :: ls => l ++ sep :: joinSep sep ls

/-- JS `startsWith('>')` specialised to a one-character argument. -/
def startsGt : List Char → Bool
  | c :: _ => c == '>'
  | [] => false

/-- The decimal digit character for a value below ten. -/
def digitChar (d : Nat) : Char :=
  match d with
  | 0 => '0' | 1 => '1' | 2 => '2' | 3 => '3' | 4 => '4'
  | 5 => '5' | 6 => '6' | 7 => '7' | 8 => '8' | _ => '9'

/-- Decimal rendering of a natural number, as JS template interpolation
produces for the non-negative integers appearing in this program. -/
def natToChars (n : Nat) : List Char :=
  if _h : n < 10 then [digitChar n]
  else natToChars (n / 10) ++ [digitChar (n % 10)]
termination_by n
decreasing_by exact Nat.div_lt_self (by omega) (by omega)

/-- Decimal value of a digit run, as JS `parseInt(s, 10)` computes on a
string of decimal digits. -/
def digitsToNat (ds : List Char) : Nat :=
  ds.foldl (fun acc c => 10 * acc + (c.toNat - 48)) 0

/-- JS indexing `s[i]` with a (possibly negative) index: `none` models the
`undefined` result of an out-of-range access. -/
def charAt (s : List Char) (i : Int) : Option Char :=
  if i < 0 then none else s[i.toNat]?

/-- The base alphabet, in source order (src/src/App.jsx line 4). -/
def BASES : List Char := ['A', 'C', 'G', 'T']

/-- The context string `before[ref>alt]after` built by the template literal. -/
def ctxString (before ref alt after : Char) : List Char :=
  [before, '[', ref, '>', alt, ']', after]

/-- Embedding of `generateAllContexts` (src/src/App.jsx lines 6-20): the
nested loops become nested binds, the `ref !== alt` guard becomes the `if`. -/
def generateAllContexts : List (List Char) :=
  BASES.flatMap fun before =>
    BASES.flatMap fun ref =>
      BASES.flatMap fun alt =>
        if ref ≠ alt then BASES.map fun after => ctxString before ref alt after
        else []

/-- The catalog order as the specification describes it: before outermost,
then ref, then alt restricted to alt ≠ ref, then after innermost, each
ranging over A,C,G,T in that order. -/
def contextCatalogClaim : List (List Char) :=
  BASES.flatMap fun before =>
    BASES.flatMap fun ref =>
      (BASES.filter (fun alt => alt ≠ ref)).flatMap fun alt =>
        BASES.map fun after => ctxString before ref alt after

lemma generateAllContexts_length : generateAllContexts.length = 192 := by decide

lemma generateAllContexts_nodup : generateAllContexts.Nodup := by decide

/-- C1: `generateAllContexts` yields exactly 192 distinct context strings in
the fixed nesting order (before, then ref, then alt skipping alt = ref, then
after, each over A,C,G,T); as a pure constant it is the same sequence on
every call. -/
theorem generateAllContexts_spec :
    generateAllContexts.length = 192 ∧ generateAllContexts.Nodup ∧
      generateAllContexts = contextCatalogClaim :=
  ⟨generateAllContexts_length, generateAllContexts_nodup, by decide⟩

/-- Embedding of `parseFasta` (src/src/App.jsx lines 24-36): trim the whole
text, split on newlines, and accumulate each trimmed non-header line
uppercased. -/
def parseFasta (text : List Char) : List Char :=
  (splitSep '\n' (jsTrim text)).foldl
    (fun sequence line =>
      if startsGt (jsTrim line) then sequence
      else sequence ++ (jsTrim line).map jsToUpper) []

/-- Contribution of one raw line to the parsed sequence. -/
def lineContrib (line : List Char) : List Char :=
  if startsGt (jsTrim line) then [] else (jsTrim line).map jsToUpper

/-- Sequence collected from a list of raw lines. -/
def collectFasta (ls : List (List Char)) : List Char :=
  (ls.map lineContrib).flatten

/-- The claim's description of `parseFasta`: uppercased concatenation of all
trimmed lines of the input that do not start with a header marker, with no
whole-text preprocessing. -/
def fastaClaim (text : List Char) : List Char :=
  ((((splitSep '\n' text).map jsTrim).filter (fun t => !startsGt t)).map
    (fun t => t.map jsToUpper)).flatten

/-- Input that consists only of header lines and whitespace. -/
def headerOrWsOnly (text : List Char) : Bool :=
  (splitSep '\n' text).all (fun line => (jsTrim line).isEmpty || startsGt (jsTrim line))

lemma splitSep_ne_nil (sep : Char) (s : List Char) : splitSep sep s ≠ [] := by
  induction s with
  | nil => simp [splitSep]
  | cons c t ih =>
    simp only [splitSep]
    split
    · simp
    · cases h : splitSep sep t with
      | nil => simp
      | cons l ls => simp [h]

lemma splitSep_cons_sep (sep : Char) (s : List Char) :
    splitSep sep (sep :: s) = [] :: splitSep sep s := by
  simp [splitSep]

lemma splitSep_cons_ne {c sep : Char} (h : c ≠ sep) {s : List Char}
    {l : List Char} {ls : List (List Char)} (hs : splitSep sep s = l :: ls) :
    splitSep sep (c :: s) = (c :: l) :: ls := by
  simp [splitSep, h, hs]

/-- Helper: append a character to the last line of a line list. -/
def addToLast (c : Char) : List (List Char) → List (List Char)
  | [] => [[c]]
  | [l] => [l ++ [c]]
  | l :: l2 :: ls => l :: addToLast c (l2 :: ls)

lemma addToLast_cons (c : Char) (l : List Char) {ls : List (List Char)}
    (h : ls ≠ []) : addToLast c (l :: ls) = l :: addToLast c ls := by
  cases ls with
  | nil => exact absurd rfl h
  | cons a as => rfl

lemma splitSep_snoc (sep c : Char) (s : List Char) :
    splitSep sep (s ++ [c]) =
      if c = sep then splitSep sep s ++ [[]] else addToLast c (splitSep sep s) := by
  induction s with
  | nil =>
    by_cases h : c = sep <;> simp [splitSep, h, addToLast]
  | cons d t ih =>
    by_cases hd : d = sep
    · rw [hd, List.cons_append, splitSep_cons_sep, splitSep_cons_sep, ih]
      by_cases h : c = sep
      · simp [h]
      · rw [if_neg h, if_neg h, addToLast_cons c [] (splitSep_ne_nil sep t)]
    · cases hs : splitSep sep t with
      | nil => exact absurd hs (splitSep_ne_nil sep t)
      | cons l ls =>
        by_cases h : c = sep
        · have h1 : splitSep sep (t ++ [c]) = l :: (ls ++ [[]]) := by
            rw [ih, if_pos h, hs]; rfl
          rw [if_pos h, List.cons_append, splitSep_cons_ne hd h1,
            splitSep_cons_ne hd hs]
          rfl
        · rw [if_neg h]
          cases ls with
          | nil =>
            have h1 : splitSep sep (t ++ [c]) = [l ++ [c]] := by
              rw [ih, if_neg h, hs]; rfl
            rw [List.cons_append, splitSep_cons_ne hd h1, splitSep_cons_ne hd hs]
            rfl
          | cons l2 ls2 =>
            have h1 : splitSep sep (t ++ [c]) = l :: addToLast c (l2 :: ls2) := by
              rw [ih, if_neg h, hs]
              exact addToLast_cons c l (by simp)
            rw [List.cons_append, splitSep_cons_ne hd h1, splitSep_cons_ne hd hs]
            rfl

lemma jsTrim_nil : jsTrim [] = [] := rfl

lemma lineContrib_nil : lineContrib [] = [] := rfl

lemma jsTrim_cons_ws {c : Char} (h : isWs c) (l : List Char) :
    jsTrim (c :: l) = jsTrim l := by
  simp [jsTrim, List.dropWhile_cons, h]

lemma jsTrim_snoc_ws {c : Char} (h : isWs c) (l : List Char) :
    jsTrim (l ++ [c]) = jsTrim l := by
  unfold jsTrim
  rw [List.dropWhile_append]
  split
  · rename_i he
    rw [List.isEmpty_iff] at he
    simp [List.dropWhile_cons, h, he]
  · rename_i he
    rw [List.reverse_append]
    simp [List.dropWhile_cons, h]

lemma lineContrib_cons_ws {c : Char} (h : isWs c) (l : List Char) :
    lineContrib (c :: l) = lineContrib l := by
  simp [lineContrib, jsTrim_cons_ws h]

lemma lineContrib_snoc_ws {c : Char} (h : isWs c) (l : List Char) :
    lineContrib (l ++ [c]) = lineContrib l := by
  simp [lineContrib, jsTrim_snoc_ws h]

lemma collectFasta_dropLeadWs (s : List Char) :
    collectFasta (splitSep '\n' (s.dropWhile isWs)) =
      collectFasta (splitSep '\n' s) := by
  induction s with
  | nil => rfl
  | cons c t ih =>
    by_cases h : isWs c
    · rw [List.dropWhile_cons_of_pos h, ih]
      by_cases hn : c = '\n'
      · subst hn
        rw [splitSep_cons_sep]
        simp [collectFasta, lineContrib_nil]
      · cases hs : splitSep '\n' t with
        | nil => exact absurd hs (splitSep_ne_nil _ t)
        | cons l ls =>
          rw [splitSep_cons_ne hn hs]
          simp [collectFasta, lineContrib_cons_ws h]
    · rw [List.dropWhile_cons_of_neg h]

lemma collectFasta_addToLast {c : Char} (h : isWs c) (L : List (List Char)) :
    collectFasta (addToLast c L) = collectFasta L := by
  induction L with
  | nil =>
    have hc : lineContrib [c] = [] := by
      rw [show ([c] : List Char) = [] ++ [c] from rfl, lineContrib_snoc_ws h,
        lineContrib_nil]
    show collectFasta [[c]] = collectFasta []
    simp [collectFasta, hc]
  | cons l ls ih =>
    cases ls with
    | nil => simp [addToLast, collectFasta, lineContrib_snoc_ws h]
    | cons l2 ls2 =>
      rw [addToLast_cons c l (by simp)]
      simp only [collectFasta, List.map_cons, List.flatten_cons] at *
      rw [ih]

lemma collectFasta_snoc_ws {c : Char} (h : isWs c) (s : List Char) :
    collectFasta (splitSep '\n' (s ++ [c])) = collectFasta (splitSep '\n' s) := by
  rw [splitSep_snoc]
  by_cases hn : c = '\n'
  · simp only [hn, if_true]
    simp [collectFasta, lineContrib_nil]
  · simp only [hn, if_false]
    exact collectFasta_addToLast h _

lemma collectFasta_dropTrailWs (s : List Char) :
    collectFasta (splitSep '\n' ((s.reverse.dropWhile isWs).reverse)) =
      collectFasta (splitSep '\n' s) := by
  induction s using List.reverseRecOn with
  | nil => rfl
  | append_singleton t c ih =>
    by_cases h : isWs c
    · rw [List.reverse_append]
      simp only [List.reverse_cons, List.reverse_nil, List.nil_append,
        List.singleton_append, List.dropWhile_cons_of_pos h]
      rw [ih, collectFasta_snoc_ws h]
    · rw [List.reverse_append]
      simp only [List.reverse_cons, List.reverse_nil, List.nil_append,
        List.singleton_append, List.dropWhile_cons_of_neg h]
      simp

lemma collectFasta_jsTrim (s : List Char) :
    collectFasta (splitSep '\n' (jsTrim s)) = collectFasta (splitSep '\n' s) := by
  unfold jsTrim
  rw [collectFasta_dropTrailWs, collectFasta_dropLeadWs]

lemma parseFasta_eq_collect (text : List Char) :
    parseFasta text = collectFasta (splitSep '\n' text) := by
  have hfold : ∀ (ls : List (List Char)) (acc : List Char),
      ls.foldl (fun sequence line =>
        if startsGt (jsTrim line) then sequence
        else sequence ++ (jsTrim line).map jsToUpper) acc =
        acc ++ collectFasta ls := by
    intro ls
    induction ls with
    | nil => intro acc; simp [collectFasta]
    | cons l t ih =>
      intro acc
      simp only [List.foldl_cons]
      by_cases h : startsGt (jsTrim l)
      · rw [if_pos h, ih]
        simp [collectFasta, lineContrib, h]
      · rw [if_neg h, ih]
        simp [collectFasta, lineContrib, h]
  unfold parseFasta
  rw [hfold, List.nil_append, collectFasta_jsTrim]

lemma collectFasta_eq_filterForm (ls : List (List Char)) :
    collectFasta ls =
      (((ls.map jsTrim).filter (fun t => !startsGt t)).map
        (fun t => t.map jsToUpper)).flatten := by
  induction ls with
  | nil => rfl
  | cons l t ih =>
    simp only [collectFasta, List.map_cons, List.flatten_cons, List.filter_cons] at *
    by_cases h : startsGt (jsTrim l)
    · simp [lineContrib, h, ih]
    · simp [lineContrib, h, ih]

/-- C8: `parseFasta` returns the uppercased concatenation of the trimmed
non-header lines of its input (the whole-text trim performed first changes
nothing), and header-or-whitespace-only input yields the empty sequence. -/
theorem parseFasta_spec (text : List Char) :
    parseFasta text = fastaClaim text ∧
      (headerOrWsOnly text = true → parseFasta text = []) := by
  have hmain : parseFasta text = fastaClaim text := by
    rw [parseFasta_eq_collect, collectFasta_eq_filterForm]
    rfl
  refine ⟨hmain, fun hall => ?_⟩
  rw [hmain]
  unfold fastaClaim
  rw [List.flatten_eq_nil_iff]
  intro l hl
  simp only [List.mem_map, List.mem_filter] at hl
  obtain ⟨t, ⟨⟨line, hline, rfl⟩, hgt⟩, rfl⟩ := hl
  unfold headerOrWsOnly at hall
  rw [List.all_eq_true] at hall
  have hha := hall line hline
  simp only [Bool.or_eq_true, List.isEmpty_iff] at hha
  rcases hha with he | hg
  · rw [he]; rfl
  · rw [hg] at hgt; simp at hgt

/-- Witness for C8 at a concrete header-and-whitespace-only input. -/
theorem parseFasta_spec_witness :
    parseFasta (">seq1\n   \n>seq2\n\t".toList) =
        fastaClaim (">seq1\n   \n>seq2\n\t".toList) ∧
      parseFasta (">seq1\n   \n>seq2\n\t".toList) = [] :=
  ⟨(parseFasta_spec _).1, (parseFasta_spec _).2 (by decide)⟩

/-- Test for membership in the base alphabet `[ACGT]`. -/
def isBase (c : Char) : Bool :=
  c == 'A' || c == 'C' || c == 'G' || c == 'T'

/-- A structured mutation as produced by `parseMutation`. -/
structure ParsedMutation where
  ref : Char
  position : Nat
  alt : Char
deriving DecidableEq, Repr

/-- Embedding of `parseMutation` (src/src/App.jsx lines 38-48), modelling the
anchored regex `([ACGT])(\d+)([ACGT])` structurally on the trimmed,
uppercased token: first character a base, then a nonempty maximal digit run,
then exactly one base character ending the string. The `'?'` defaults of
`headD` are unreachable under the guard. -/
def parseMutation (mutStr : List Char) : Option ParsedMutation :=
  let t := (jsTrim mutStr).map jsToUpper
  let rest := t.tail
  let ds := rest.takeWhile Char.isDigit
  let tl := rest.dropWhile Char.isDigit
  if !t.isEmpty && isBase (t.headD '?') && !ds.isEmpty && tl.length == 1 &&
      isBase (tl.headD '?') then
    some ⟨t.headD '?', digitsToNat ds, tl.headD '?'⟩
  else none

lemma base_not_digit {a : Char} (h : isBase a = true) : a.isDigit = false := by
  simp only [isBase, Bool.or_eq_true, beq_iff_eq] at h
  rcases h with ((rfl | rfl) | rfl) | rfl <;> rfl

lemma takeWhile_digits {ds : List Char} {a : Char}
    (hds : ∀ d ∈ ds, Char.isDigit d = true) (ha : isBase a = true) :
    (ds ++ [a]).takeWhile Char.isDigit = ds := by
  rw [List.takeWhile_append_of_pos hds]
  simp [List.takeWhile_cons, base_not_digit ha]

lemma dropWhile_digits {ds : List Char} {a : Char}
    (hds : ∀ d ∈ ds, Char.isDigit d = true) (ha : isBase a = true) :
    (ds ++ [a]).dropWhile Char.isDigit = [a] := by
  rw [List.dropWhile_append_of_pos hds]
  simp [List.dropWhile_cons, base_not_digit ha]

lemma parseMutation_eq_some_of {s : List Char} {r a : Char} {ds : List Char}
    (ht : (jsTrim s).map jsToUpper = r :: (ds ++ [a]))
    (hr : isBase r = true) (hne : ds ≠ [])
    (hds : ∀ d ∈ ds, Char.isDigit d = true) (ha : isBase a = true) :
    parseMutation s = some ⟨r, digitsToNat ds, a⟩ := by
  unfold parseMutation
  rw [ht]
  simp [takeWhile_digits hds ha, dropWhile_digits hds ha, hr, ha, hne]

lemma parseMutation_decomp {s : List Char} {m : ParsedMutation}
    (h : parseMutation s = some m) :
    ∃ r ds a, (jsTrim s).map jsToUpper = r :: (ds ++ [a]) ∧
      isBase r = true ∧ ds ≠ [] ∧ (∀ d ∈ ds, Char.isDigit d = true) ∧
      isBase a = true ∧ m = ⟨r, digitsToNat ds, a⟩ := by
  unfold parseMutation at h
  by_cases hcond : !((jsTrim s).map jsToUpper).isEmpty &&
      isBase (((jsTrim s).map jsToUpper).headD '?') &&
      !((((jsTrim s).map jsToUpper).tail).takeWhile Char.isDigit).isEmpty &&
      ((((jsTrim s).map jsToUpper).tail).dropWhile Char.isDigit).length == 1 &&
      isBase (((((jsTrim s).map jsToUpper).tail).dropWhile Char.isDigit).headD '?')
  · rw [if_pos hcond] at h
    simp only [Bool.and_eq_true, Bool.not_eq_true', List.isEmpty_eq_false,
      beq_iff_eq] at hcond
    obtain ⟨⟨⟨⟨hne0, hr⟩, hdsne⟩, hlen⟩, ha⟩ := hcond
    cases hu : (jsTrim s).map jsToUpper with
    | nil => exact absurd hu hne0
    | cons r rest =>
      rw [hu] at h hr hdsne hlen ha
      cases htl : rest.dropWhile Char.isDigit with
      | nil => rw [List.tail_cons, htl] at hlen; simp at hlen
      | cons a tl2 =>
        cases tl2 with
        | cons x xs => rw [List.tail_cons, htl] at hlen; simp at hlen
        | nil =>
          rw [List.tail_cons] at h hdsne hlen ha
          rw [htl] at h ha
          refine ⟨r, rest.takeWhile Char.isDigit, a, ?_, ?_, ?_, ?_, ?_, ?_⟩
          · have hsplit :=
              List.takeWhile_append_dropWhile (p := Char.isDigit) (l := rest)
            rw [htl] at hsplit
            rw [hsplit]
          · simpa using hr
          · intro hcontra
            rw [hcontra] at hdsne
            simp at hdsne
          · intro d hd
            exact List.mem_takeWhile_imp hd
          · simpa using ha
          · injection h with h2
            rw [← h2]
            simp
  · rw [if_neg hcond] at h
    cases h

/-- C7: `parseMutation` returns `none` exactly when the trimmed uppercased
token does not match base, nonempty digit run, base (anchored); on a match
it returns the first base, the decimal value of the digit run, and the last
base — with reference base equal to alternate base accepted. -/
theorem parseMutation_spec (mutStr : List Char) :
    (parseMutation mutStr = none ↔
      ¬∃ r ds a, (jsTrim mutStr).map jsToUpper = r :: (ds ++ [a]) ∧
        isBase r = true ∧ ds ≠ [] ∧ (∀ d ∈ ds, Char.isDigit d = true) ∧
        isBase a = true) ∧
    (∀ r ds a, (jsTrim mutStr).map jsToUpper = r :: (ds ++ [a]) →
      isBase r = true → ds ≠ [] → (∀ d ∈ ds, Char.isDigit d = true) →
      isBase a = true → parseMutation mutStr = some ⟨r, digitsToNat ds, a⟩) := by
  constructor
  · constructor
    · intro hnone hex
      obtain ⟨r, ds, a, ht, hr, hne, hds, ha⟩ := hex
      rw [parseMutation_eq_some_of ht hr hne hds ha] at hnone
      cases hnone
    · intro hnex
      cases hp : parseMutation mutStr with
      | none => rfl
      | some m =>
        obtain ⟨r, ds, a, ht, hr, hne, hds, ha, _⟩ := parseMutation_decomp hp
        exact absurd ⟨r, ds, a, ht, hr, hne, hds, ha⟩ hnex
  · intro r ds a ht hr hne hds ha
    exact parseMutation_eq_some_of ht hr hne hds ha

/-- Witness for C7: the token `" g3g "` (same reference and alternate base)
parses to `G`, position 3, `G`; the hypotheses are discharged at this
concrete input. -/
theorem parseMutation_spec_witness :
    parseMutation " g3g ".toList = some ⟨'G', 3, 'G'⟩ :=
  (parseMutation_spec " g3g ".toList).2 'G' ['3'] 'G' (by decide) (by decide)
    (by decide) (by decide) (by decide)

/-- The successful result record of `contextualiseMutation`. -/
structure CtxResult where
  context : List Char
  before : Char
  ref : Char
  alt : Char
  after : Char
  position : Nat
deriving DecidableEq, Repr

/-- Outcome of `contextualiseMutation`: an error message or a result record. -/
inductive CtxOut where
  | error (msg : List Char)
  | success (r : CtxResult)
deriving DecidableEq, Repr

/-- The out-of-range error message template. -/
def rangeMsg (position len : Nat) : List Char :=
  "Position ".toList ++ natToChars position ++
    " out of range (sequence length: ".toList ++ natToChars len ++ ")".toList

/-- The reference-mismatch error message template. -/
def mismatchMsg (position : Nat) (ref actual : Char) : List Char :=
  "Reference mismatch at position ".toList ++ natToChars position ++
    ": expected ".toList ++ [ref] ++ ", found ".toList ++ [actual]

/-- Embedding of `contextualiseMutation` (src/src/App.jsx lines 50-74).
Every sequence read goes through the `Option`-returning `charAt`, combined
with `bind`, so an unguarded out-of-range read would surface as `none`. -/
def contextualiseMutation (sequence : List Char) (mutation : ParsedMutation) :
    Option CtxOut :=
  if (mutation.position : Int) - 1 < 0 ∨
      (sequence.length : Int) ≤ (mutation.position : Int) - 1 then
    some (.error (rangeMsg mutation.position sequence.length))
  else
    (charAt sequence ((mutation.position : Int) - 1)).bind fun actualBase =>
      if actualBase ≠ mutation.ref then
        some (.error (mismatchMsg mutation.position mutation.ref actualBase))
      else
        (if 0 < (mutation.position : Int) - 1 then
            charAt sequence ((mutation.position : Int) - 1 - 1)
          else some 'N').bind fun before =>
          (if (mutation.position : Int) - 1 < (sequence.length : Int) - 1 then
              charAt sequence ((mutation.position : Int) - 1 + 1)
            else some 'N').bind fun after =>
            some (.success ⟨ctxString before mutation.ref mutation.alt after,
              before, mutation.ref, mutation.alt, after, mutation.position⟩)

/-- The claim's description of `contextualiseMutation`: bounds check, then
reference check, then flank derivation with `'N'` sentinels at the sequence
edges; total because the claim asserts every read is in bounds (the `getD`
defaults are unreachable). -/
def contextualiseClaim (sequence : List Char) (m : ParsedMutation) : CtxOut :=
  if (m.position : Int) - 1 < 0 ∨
      (sequence.length : Int) ≤ (m.position : Int) - 1 then
    .error (rangeMsg m.position sequence.length)
  else if sequence.getD ((m.position : Int) - 1).toNat 'N' ≠ m.ref then
    .error (mismatchMsg m.position m.ref
      (sequence.getD ((m.position : Int) - 1).toNat 'N'))
  else
    .success ⟨ctxString
        (if 0 < (m.position : Int) - 1 then
          sequence.getD ((m.position : Int) - 1 - 1).toNat 'N' else 'N')
        m.ref m.alt
        (if (m.position : Int) - 1 < (sequence.length : Int) - 1 then
          sequence.getD ((m.position : Int) - 1 + 1).toNat 'N' else 'N'),
      (if 0 < (m.position : Int) - 1 then
        sequence.getD ((m.position : Int) - 1 - 1).toNat 'N' else 'N'),
      m.ref, m.alt,
      (if (m.position : Int) - 1 < (sequence.length : Int) - 1 then
        sequence.getD ((m.position : Int) - 1 + 1).toNat 'N' else 'N'),
      m.position⟩

lemma charAt_eq_getD {s : List Char} {i : Int} (h0 : 0 ≤ i)
    (hl : i < (s.length : Int)) : charAt s i = some (s.getD i.toNat 'N') := by
  unfold charAt
  rw [if_neg (not_lt.mpr h0)]
  have hn : i.toNat < s.length := by omega
  rw [List.getElem?_eq_getElem hn, List.getD_eq_getElem?_getD,
    List.getElem?_eq_getElem hn]
  rfl

lemma contextualise_eq_claim (sequence : List Char) (m : ParsedMutation) :
    contextualiseMutation sequence m = some (contextualiseClaim sequence m) := by
  unfold contextualiseMutation contextualiseClaim
  by_cases hb : (m.position : Int) - 1 < 0 ∨
      (sequence.length : Int) ≤ (m.position : Int) - 1
  · rw [if_pos hb, if_pos hb]
  · rw [if_neg hb, if_neg hb]
    have h0 : (0 : Int) ≤ (m.position : Int) - 1 := by omega
    have hlt : (m.position : Int) - 1 < (sequence.length : Int) := by omega
    rw [charAt_eq_getD h0 hlt, Option.some_bind]
    by_cases hm : sequence.getD ((m.position : Int) - 1).toNat 'N' ≠ m.ref
    · rw [if_pos hm, if_pos hm]
    · rw [if_neg hm, if_neg hm]
      by_cases hbf : 0 < (m.position : Int) - 1
      · rw [if_pos hbf, if_pos hbf, charAt_eq_getD (by omega) (by omega),
          Option.some_bind]
        by_cases haf : (m.position : Int) - 1 < (sequence.length : Int) - 1
        · rw [if_pos haf, if_pos haf, charAt_eq_getD (by omega) (by omega),
            Option.some_bind]
        · rw [if_neg haf, if_neg haf, Option.some_bind]
      · rw [if_neg hbf, if_neg hbf, Option.some_bind]
        by_cases haf : (m.position : Int) - 1 < (sequence.length : Int) - 1
        · rw [if_pos haf, if_pos haf, charAt_eq_getD (by omega) (by omega),
            Option.some_bind]
        · rw [if_neg haf, if_neg haf, Option.some_bind]

/-- C2: `contextualiseMutation` fails with exactly the out-of-range message
when `position - 1` falls outside the sequence, otherwise fails with exactly
the mismatch message when the base at index `position - 1` differs from the
reference base, and otherwise succeeds with the `'N'`-sentinelled flanks and
the assembled context string, as described by `contextualiseClaim`. -/
theorem contextualiseMutation_spec (sequence : List Char) (m : ParsedMutation) :
    contextualiseMutation sequence m = some (contextualiseClaim sequence m) :=
  contextualise_eq_claim sequence m

/-- C10: every sequence read performed by `contextualiseMutation` is in
bounds — the `none` branch of the `Option`-returning indexing is
unreachable, for every sequence and parsed mutation. -/
theorem contextualiseMutation_inBounds (sequence : List Char)
    (m : ParsedMutation) : (contextualiseMutation sequence m).isSome = true := by
  rw [contextualise_eq_claim]
  rfl

/-- A per-mutation outcome in the results list: a `ContextResult` or an
`ErrorResult` for the original token. -/
inductive Outcome where
  | failure (original : List Char) (message : List Char)
  | success (original : List Char) (r : CtxResult)
deriving DecidableEq, Repr

/-- A JS object used as a count table, modelled as an association list with
insertion order preserved and unique keys. -/
abbrev CountTable := List (List Char × Nat)

/-- Reading `o[k]`: `none` models an absent key. -/
def objGet (o : CountTable) (k : List Char) : Option Nat :=
  (o.find? (fun p => p.1 == k)).map (fun p => p.2)

/-- Model of `o.hasOwnProperty(k)`. -/
def objHas (o : CountTable) (k : List Char) : Bool :=
  o.any (fun p => p.1 == k)

/-- Model of `o[k]++` on a present key (keys are unique by construction). -/
def objIncr (o : CountTable) (k : List Char) : CountTable :=
  o.map (fun p => if p.1 == k then (p.1, p.2 + 1) else p)

/-- The count table after the all-zero initialisation loop (lines 93-95). -/
def initCounts : CountTable :=
  generateAllContexts.map (fun ctx => (ctx, 0))

/-- The token batch: split on commas, trim, drop empties (lines 84-87). -/
def tokenize (mutationsInput : List Char) : List (List Char) :=
  ((splitSep ',' mutationsInput).map jsTrim).filter (fun s => !s.isEmpty)

/-- The loop body for one token (lines 97-113): parse, contextualise, build
the outcome, and increment the count when the context is a present key. -/
def processToken (sequence : List Char) (counts : CountTable)
    (mutStr : List Char) : Outcome × CountTable :=
  match parseMutation mutStr with
  | none => (.failure mutStr "Invalid mutation format".toList, counts)
  | some mutation =>
    match contextualiseMutation sequence mutation with
    | none => (.failure mutStr "unreachable read".toList, counts)
    | some (.error e) => (.failure mutStr e, counts)
    | some (.success r) =>
      (.success mutStr r,
        if objHas counts r.context then objIncr counts r.context else counts)

/-- The outcome the loop appends for one token, which depends only on the
sequence and the token. -/
def outcomeFor (sequence mutStr : List Char) : Outcome :=
  match parseMutation mutStr with
  | none => .failure mutStr "Invalid mutation format".toList
  | some mutation =>
    match contextualiseMutation sequence mutation with
    | none => .failure mutStr "unreachable read".toList
    | some (.error e) => .failure mutStr e
    | some (.success r) => .success mutStr r

/-- The token loop of `App` (lines 97-113), accumulating outcomes in input
order together with the evolving count table. -/
def runBatch (sequence : List Char) :
    List (List Char) → List Outcome → CountTable → List Outcome × CountTable
  | [], acc, counts => (acc, counts)
  | t :: ts, acc, counts =>
    runBatch sequence ts (acc ++ [(processToken sequence counts t).1])
      (processToken sequence counts t).2

/-- The value of the `results` memo in `App`: outcome list, count table and
(when present) the parsed sequence. -/
structure AppResults where
  contextualised : List Outcome
  counts : CountTable
  sequence : Option (List Char)
deriving DecidableEq, Repr

/-- Embedding of the `results` computation (src/src/App.jsx lines 80-116):
empty parsed sequence short-circuits to empty outcomes and an empty count
object; otherwise the batch is processed over the zero-initialised table. -/
def appResults (fastaInput mutationsInput : List Char) : AppResults :=
  if (parseFasta fastaInput).isEmpty then ⟨[], [], none⟩
  else
    ⟨(runBatch (parseFasta fastaInput) (tokenize mutationsInput) [] initCounts).1,
      (runBatch (parseFasta fastaInput) (tokenize mutationsInput) [] initCounts).2,
      some (parseFasta fastaInput)⟩

/-- One data row of the TSV: `${ctx}\t${counts[ctx] || 0}` (an absent key
and a zero count both render as `0`, as `|| 0` does on these values). -/
def tsvRow (counts : CountTable) (ctx : List Char) : List Char :=
  ctx ++ '\t' :: natToChars ((objGet counts ctx).getD 0)

/-- Embedding of the `tsvOutput` memo (src/src/App.jsx lines 118-124). -/
def tsvOutput (counts : CountTable) : List Char :=
  joinSep '\n' ("Context\tCount".toList ::
    generateAllContexts.map (tsvRow counts))

/-- The claim's counting predicate: the token parses, validates against the
sequence, and yields a context that is one of the 192 canonical contexts. -/
def countsToken (sequence mutStr : List Char) : Bool :=
  match parseMutation mutStr with
  | none => false
  | some mutation =>
    match contextualiseMutation sequence mutation with
    | some (.success r) => decide (r.context ∈ generateAllContexts)
    | _ => false

/-- Sum of all counts in a table. -/
def sumVals (o : CountTable) : Nat :=
  (o.map (fun p => p.2)).sum

lemma objIncr_keys (o : CountTable) (k : List Char) :
    (objIncr o k).map Prod.fst = o.map Prod.fst := by
  unfold objIncr
  rw [List.map_map]
  apply List.map_congr_left
  intro p _
  by_cases h : p.1 = k <;> simp [h]

lemma objHas_iff (o : CountTable) (k : List Char) :
    objHas o k = true ↔ k ∈ o.map Prod.fst := by
  unfold objHas
  rw [List.any_eq_true]
  constructor
  · rintro ⟨p, hp, hpk⟩
    rw [beq_iff_eq] at hpk
    exact hpk ▸ List.mem_map_of_mem Prod.fst hp
  · intro hk
    obtain ⟨p, hp, hpk⟩ := List.mem_map.mp hk
    exact ⟨p, hp, by rw [beq_iff_eq, hpk]⟩

lemma objIncr_not_has {o : CountTable} {k : List Char}
    (h : objHas o k = false) : objIncr o k = o := by
  induction o with
  | nil => rfl
  | cons p ps ih =>
    rw [objHas, List.any_cons, Bool.or_eq_false_iff] at h
    show (if p.1 == k then (p.1, p.2 + 1) else p) :: objIncr ps k = p :: ps
    rw [if_neg (by simp [h.1]), ih h.2]

lemma sumVals_cons (p : List Char × Nat) (ps : CountTable) :
    sumVals (p :: ps) = p.2 + sumVals ps := by
  simp [sumVals]

lemma objIncr_sum {o : CountTable} {k : List Char}
    (nd : (o.map Prod.fst).Nodup) (h : objHas o k = true) :
    sumVals (objIncr o k) = sumVals o + 1 := by
  induction o with
  | nil => simp [objHas] at h
  | cons p ps ih =>
    rw [List.map_cons, List.nodup_cons] at nd
    by_cases hpk : (p.1 == k) = true
    · have hknotps : objHas ps k = false := by
        rw [beq_iff_eq] at hpk
        by_contra hc
        rw [Bool.not_eq_false] at hc
        exact nd.1 (hpk ▸ (objHas_iff ps k).mp hc)
      show sumVals ((if p.1 == k then (p.1, p.2 + 1) else p) :: objIncr ps k) = _
      rw [if_pos hpk, objIncr_not_has hknotps, sumVals_cons, sumVals_cons]
      omega
    · have h' : objHas ps k = true := by
        rw [objHas, List.any_cons] at h
        simp only [hpk, Bool.false_or] at h
        exact h
      show sumVals ((if p.1 == k then (p.1, p.2 + 1) else p) :: objIncr ps k) = _
      rw [if_neg hpk, sumVals_cons, sumVals_cons, ih nd.2 h']
      omega

lemma objGet_eq_none_of_not_mem {o : CountTable} {k : List Char}
    (h : k ∉ o.map Prod.fst) : objGet o k = none := by
  unfold objGet
  have hf : o.find? (fun p => p.1 == k) = none := by
    rw [List.find?_eq_none]
    intro p hp hbeq
    rw [beq_iff_eq] at hbeq
    exact h (hbeq ▸ List.mem_map_of_mem Prod.fst hp)
  rw [hf]
  rfl

lemma allContexts_no_N : ∀ c ∈ generateAllContexts, 'N' ∉ c := by decide

lemma processToken_fst (seq : List Char) (counts : CountTable)
    (t : List Char) : (processToken seq counts t).1 = outcomeFor seq t := by
  unfold processToken outcomeFor
  cases parseMutation t with
  | none => rfl
  | some mutation =>
    dsimp only
    cases contextualiseMutation seq mutation with
    | none => rfl
    | some out => cases out <;> rfl

lemma processToken_keys (seq : List Char) (counts : CountTable)
    (t : List Char) :
    ((processToken seq counts t).2).map Prod.fst = counts.map Prod.fst := by
  unfold processToken
  cases parseMutation t with
  | none => rfl
  | some mutation =>
    dsimp only
    cases contextualiseMutation seq mutation with
    | none => rfl
    | some out =>
      cases out with
      | error e => rfl
      | success r =>
        dsimp only
        by_cases hh : objHas counts r.context = true <;>
          simp [hh, objIncr_keys]

lemma processToken_sum (seq : List Char) (counts : CountTable) (t : List Char)
    (hkeys : counts.map Prod.fst = generateAllContexts) :
    sumVals (processToken seq counts t).2 =
      sumVals counts + (if countsToken seq t then 1 else 0) := by
  unfold processToken countsToken
  cases parseMutation t with
  | none => simp
  | some mutation =>
    dsimp only
    cases contextualiseMutation seq mutation with
    | none => simp
    | some out =>
      cases out with
      | error e => simp
      | success r =>
        dsimp only
        have hnd : (counts.map Prod.fst).Nodup := by
          rw [hkeys]; exact generateAllContexts_nodup
        by_cases hh : objHas counts r.context = true
        · have hmem : r.context ∈ generateAllContexts := by
            rw [← hkeys]; exact (objHas_iff _ _).mp hh
          rw [if_pos hh, objIncr_sum hnd hh]
          simp [hmem]
        · have hmem : r.context ∉ generateAllContexts := by
            rw [← hkeys]
            intro hc
            exact hh ((objHas_iff _ _).mpr hc)
          rw [if_neg hh]
          simp [hmem]

lemma runBatch_fst (seq : List Char) :
    ∀ (ts : List (List Char)) (acc : List Outcome) (counts : CountTable),
      (runBatch seq ts acc counts).1 = acc ++ ts.map (outcomeFor seq) := by
  intro ts
  induction ts with
  | nil => intro acc counts; simp [runBatch]
  | cons t ts ih =>
    intro acc counts
    rw [runBatch, ih, processToken_fst]
    simp

lemma runBatch_keys (seq : List Char) :
    ∀ (ts : List (List Char)) (acc : List Outcome) (counts : CountTable),
      ((runBatch seq ts acc counts).2).map Prod.fst = counts.map Prod.fst := by
  intro ts
  induction ts with
  | nil => intro acc counts; rfl
  | cons t ts ih =>
    intro acc counts
    rw [runBatch, ih, processToken_keys]

lemma runBatch_sum (seq : List Char) :
    ∀ (ts : List (List Char)) (acc : List Outcome) (counts : CountTable),
      counts.map Prod.fst = generateAllContexts →
      sumVals (runBatch seq ts acc counts).2 =
        sumVals counts + ts.countP (countsToken seq) := by
  intro ts
  induction ts with
  | nil => intro acc counts _; simp [runBatch]
  | cons t ts ih =>
    intro acc counts hkeys
    have hkeys2 : ((processToken seq counts t).2).map Prod.fst =
        generateAllContexts := by
      rw [processToken_keys, hkeys]
    rw [runBatch, ih _ _ hkeys2, processToken_sum seq counts t hkeys,
      List.countP_cons]
    omega

lemma initCounts_keys : initCounts.map Prod.fst = generateAllContexts := by
  decide

lemma initCounts_sum : sumVals initCounts = 0 := by decide

lemma countsToken_nil (t : List Char) : countsToken [] t = false := by
  unfold countsToken
  cases parseMutation t with
  | none => rfl
  | some m =>
    dsimp only
    have hcond : (m.position : Int) - 1 < 0 ∨
        ((([] : List Char).length : Int) ≤ (m.position : Int) - 1) := by
      simp only [List.length_nil]
      omega
    have hb : contextualiseMutation [] m =
        some (.error (rangeMsg m.position 0)) := by
      unfold contextualiseMutation
      rw [if_pos hcond]
      simp only [List.length_nil]
    rw [hb]

/-- C3 (amended): for inputs whose parsed sequence is non-empty the count
table has exactly the 192 canonical contexts as keys (counts are naturals,
hence nonnegative) and no context containing `'N'` is ever a key; in the
empty-sequence short-circuit the count table is the empty object, not an
all-zero 192-key table. -/
theorem countTable_keys_spec (ft mt : List Char) :
    (parseFasta ft ≠ [] →
      (appResults ft mt).counts.map Prod.fst = generateAllContexts ∧
        ∀ ctx, 'N' ∈ ctx → objGet (appResults ft mt).counts ctx = none) ∧
    (parseFasta ft = [] → (appResults ft mt).counts = []) := by
  constructor
  · intro hne
    have happ : (appResults ft mt).counts =
        (runBatch (parseFasta ft) (tokenize mt) [] initCounts).2 := by
      unfold appResults
      rw [if_neg (by simpa using hne)]
    rw [happ]
    have hkeys : ((runBatch (parseFasta ft) (tokenize mt) []
        initCounts).2).map Prod.fst = generateAllContexts := by
      rw [runBatch_keys, initCounts_keys]
    refine ⟨hkeys, fun ctx hN => ?_⟩
    apply objGet_eq_none_of_not_mem
    rw [hkeys]
    intro hmem
    exact allContexts_no_N ctx hmem hN
  · intro he
    unfold appResults
    rw [if_pos (by simp [he])]

/-- Counterexample for C3 as stated: at the empty sequence input the claim
demands all 192 canonical keys be present with count 0, but the code's
short-circuit returns an empty count object, so the very first canonical
context is absent. -/
theorem countTable_keys_counterexample :
    "A[A>C]A".toList ∈ generateAllContexts ∧
      objGet (appResults [] "G3C".toList).counts "A[A>C]A".toList = none := by
  constructor
  · decide
  · rfl

/-- Witness for C3 (amended), applied at a non-empty sequence and at an
empty sequence. -/
theorem countTable_keys_spec_witness :
    ((appResults "ACGT".toList "G3C".toList).counts.map Prod.fst =
        generateAllContexts ∧
      ∀ ctx, 'N' ∈ ctx →
        objGet (appResults "ACGT".toList "G3C".toList).counts ctx = none) ∧
      (appResults [] "G3C".toList).counts = [] :=
  ⟨(countTable_keys_spec "ACGT".toList "G3C".toList).1 (by decide),
    (countTable_keys_spec [] "G3C".toList).2 rfl⟩

/-- C5: the sum of all counts in the resulting table equals the number of
tokens that parse, validate against the parsed sequence, and derive a
context that is one of the 192 canonical contexts. -/
theorem countSum_spec (ft mt : List Char) :
    sumVals (appResults ft mt).counts =
      (tokenize mt).countP (countsToken (parseFasta ft)) := by
  by_cases he : (parseFasta ft).isEmpty = true
  · unfold appResults
    rw [if_pos he]
    have he' : parseFasta ft = [] := by simpa using he
    rw [he']
    show 0 = _
    symm
    rw [List.countP_eq_zero]
    intro t _
    simp [countsToken_nil]
  · unfold appResults
    rw [if_neg he]
    show sumVals (runBatch (parseFasta ft) (tokenize mt) [] initCounts).2 = _
    rw [runBatch_sum _ _ _ _ initCounts_keys, initCounts_sum]
    omega

/-- C6 (amended): when the parsed sequence is non-empty, the outcomes list
is exactly one outcome per non-empty trimmed comma-separated token, in input
order, each the outcome for that token; with an empty parsed sequence the
short-circuit makes the outcomes list empty regardless of tokens. -/
theorem outcomesPerToken (ft mt : List Char) (h : parseFasta ft ≠ []) :
    (appResults ft mt).contextualised =
      (tokenize mt).map (outcomeFor (parseFasta ft)) := by
  unfold appResults
  rw [if_neg (by simpa using h)]
  show (runBatch (parseFasta ft) (tokenize mt) [] initCounts).1 = _
  rw [runBatch_fst]
  rfl

/-- Counterexample for C6 as stated: with an empty parsed sequence and one
non-empty token the outcomes list is empty rather than of length one. -/
theorem outcomesPerToken_counterexample :
    (appResults [] "G3C".toList).contextualised.length = 0 ∧
      (tokenize "G3C".toList).length = 1 := by
  constructor
  · rfl
  · rfl

/-- Witness for C6 (amended) at a concrete non-empty sequence. -/
theorem outcomesPerToken_witness :
    (appResults "ACGT".toList "G3C, A1T".toList).contextualised =
      (tokenize "G3C, A1T".toList).map (outcomeFor (parseFasta "ACGT".toList)) :=
  outcomesPerToken "ACGT".toList "G3C, A1T".toList (by decide)

lemma mem_splitSep_no_sep {sep : Char} :
    ∀ {s l : List Char}, l ∈ splitSep sep s → sep ∉ l := by
  intro s
  induction s with
  | nil =>
    intro l hl
    simp only [splitSep, List.mem_singleton] at hl
    subst hl
    simp
  | cons c rest ih =>
    intro l hl
    by_cases hc : c = sep
    · subst hc
      rw [splitSep_cons_sep] at hl
      rcases List.mem_cons.mp hl with rfl | hl2
      · simp
      · exact ih hl2
    · cases hs : splitSep sep rest with
      | nil => exact absurd hs (splitSep_ne_nil sep rest)
      | cons m ms =>
        rw [splitSep_cons_ne hc hs] at hl
        rcases List.mem_cons.mp hl with rfl | hl2
        · intro hmm
          rcases List.mem_cons.mp hmm with he | hm
          · exact hc he.symm
          · exact ih (by rw [hs]; exact List.mem_cons_self m ms) hm
        · exact ih (by rw [hs]; exact List.mem_cons_of_mem m hl2)

lemma splitSep_eq_single {sep : Char} {s : List Char} (h : sep ∉ s) :
    splitSep sep s = [s] := by
  induction s with
  | nil => rfl
  | cons c rest ih =>
    have hc : c ≠ sep := fun hh =>
      h (by rw [← hh]; exact List.mem_cons_self c rest)
    have hr : sep ∉ rest := fun hh => h (List.mem_cons_of_mem c hh)
    rw [splitSep_cons_ne hc (ih hr)]

lemma head?_dropWhile (p : Char → Bool) (l : List Char) :
    ∀ x, (l.dropWhile p).head? = some x → p x = false := by
  intro x hx
  have hh := List.head?_dropWhile_not p l
  rw [hx] at hh
  exact hh

lemma dropWhile_eq_self_of_head? {p : Char → Bool} {l : List Char}
    (h : ∀ x, l.head? = some x → p x = false) : l.dropWhile p = l := by
  cases l with
  | nil => rfl
  | cons a t => rw [List.dropWhile_cons_of_neg (by simp [h a rfl])]

lemma jsTrim_last (s : List Char) :
    ∀ x, (jsTrim s).getLast? = some x → isWs x = false := by
  intro x hx
  unfold jsTrim at hx
  rw [List.getLast?_reverse] at hx
  exact head?_dropWhile _ _ x hx

lemma jsTrim_head (s : List Char) :
    ∀ x, (jsTrim s).head? = some x → isWs x = false := by
  intro x hx
  unfold jsTrim at hx
  rw [List.head?_reverse] at hx
  have hvne : (s.dropWhile isWs).reverse.dropWhile isWs ≠ [] := by
    intro hcontra
    rw [hcontra] at hx
    cases hx
  obtain ⟨pre, hpre⟩ :=
    List.dropWhile_suffix (l := (s.dropWhile isWs).reverse) isWs
  have h1 : (s.dropWhile isWs).reverse.getLast? = some x := by
    rw [← hpre, List.getLast?_append_of_ne_nil pre hvne]
    exact hx
  rw [List.getLast?_reverse] at h1
  exact head?_dropWhile _ _ x h1

lemma jsTrim_of_ends {w : List Char}
    (hh : ∀ x, w.head? = some x → isWs x = false)
    (hl : ∀ x, w.getLast? = some x → isWs x = false) : jsTrim w = w := by
  unfold jsTrim
  rw [dropWhile_eq_self_of_head? hh,
    dropWhile_eq_self_of_head?
      (fun x hx => hl x (by rwa [List.head?_reverse] at hx))]
  exact List.reverse_reverse w

lemma jsTrim_idem (s : List Char) : jsTrim (jsTrim s) = jsTrim s :=
  jsTrim_of_ends (jsTrim_head s) (jsTrim_last s)

lemma jsTrim_subset {s : List Char} : ∀ x ∈ jsTrim s, x ∈ s := by
  intro x hx
  unfold jsTrim at hx
  rw [List.mem_reverse] at hx
  have hx2 := (List.dropWhile_suffix isWs).subset hx
  rw [List.mem_reverse] at hx2
  exact (List.dropWhile_suffix isWs).subset hx2

lemma tokenize_single {mt t : List Char} (h : t ∈ tokenize mt) :
    tokenize t = [t] := by
  unfold tokenize at h
  rw [List.mem_filter] at h
  obtain ⟨hmem, hne⟩ := h
  obtain ⟨u, hu, rfl⟩ := List.mem_map.mp hmem
  have hnc : ',' ∉ jsTrim u := fun hc =>
    mem_splitSep_no_sep hu (jsTrim_subset _ hc)
  unfold tokenize
  rw [splitSep_eq_single hnc, List.map_cons, List.map_nil, jsTrim_idem]
  simp only [List.filter_cons, hne, List.filter_nil]
  rfl

/-- C9: per-token noninterference — with a non-empty parsed sequence, the
i-th outcome of a batch equals the sole outcome of running the pipeline on
that token alone over the same sequence, so other tokens never affect it. -/
theorem tokenNoninterference (ft mt t : List Char)
    (hseq : parseFasta ft ≠ []) (i : Nat)
    (ht : (tokenize mt).get? i = some t) :
    ((appResults ft mt).contextualised).get? i =
      ((appResults ft t).contextualised).get? 0 := by
  have hmem : t ∈ tokenize mt := List.get?_mem ht
  rw [outcomesPerToken ft mt hseq, outcomesPerToken ft t hseq,
    tokenize_single hmem, List.get?_map, ht, List.get?_map]
  rfl

/-- Witness for C9 at a concrete two-token batch. -/
theorem tokenNoninterference_witness :
    ((appResults "ACGT".toList "G3C, A1T".toList).contextualised).get? 1 =
      ((appResults "ACGT".toList "A1T".toList).contextualised).get? 0 :=
  tokenNoninterference "ACGT".toList "G3C, A1T".toList "A1T".toList
    (by decide) 1 (by decide)

lemma digitChar_ne (d : Nat) : digitChar d ≠ '\n' ∧ digitChar d ≠ '\t' := by
  unfold digitChar
  split <;> exact ⟨by decide, by decide⟩

lemma natToChars_chars (n : Nat) :
    ∀ c ∈ natToChars n, c ≠ '\n' ∧ c ≠ '\t' := by
  induction n using Nat.strong_induction_on with
  | _ n ih =>
    intro c hc
    rw [natToChars] at hc
    by_cases h : n < 10
    · rw [dif_pos h] at hc
      simp only [List.mem_singleton] at hc
      subst hc
      exact digitChar_ne n
    · rw [dif_neg h] at hc
      rw [List.mem_append] at hc
      rcases hc with h1 | h2
      · exact ih (n / 10) (Nat.div_lt_self (by omega) (by omega)) c h1
      · simp only [List.mem_singleton] at h2
        subst h2
        exact digitChar_ne _

lemma splitSep_append_sep {sep : Char} {l : List Char} (h : sep ∉ l)
    (X : List Char) : splitSep sep (l ++ sep :: X) = l :: splitSep sep X := by
  induction l with
  | nil => exact splitSep_cons_sep sep X
  | cons c l' ih =>
    have hc : c ≠ sep := fun hh =>
      h (by rw [← hh]; exact List.mem_cons_self c l')
    have hl' : sep ∉ l' := fun hh => h (List.mem_cons_of_mem c hh)
    rw [List.cons_append, splitSep_cons_ne hc (ih hl')]

lemma splitSep_joinSep {sep : Char} :
    ∀ {ls : List (List Char)}, ls ≠ [] → (∀ l ∈ ls, sep ∉ l) →
      splitSep sep (joinSep sep ls) = ls := by
  intro ls
  induction ls with
  | nil => intro h _; exact absurd rfl h
  | cons l rest ih =>
    intro _ hall
    cases rest with
    | nil =>
      show splitSep sep (joinSep sep [l]) = [l]
      rw [joinSep]
      exact splitSep_eq_single (hall l (List.mem_cons_self l []))
    | cons l2 rest2 =>
      show splitSep sep (joinSep sep (l :: l2 :: rest2)) = l :: l2 :: rest2
      rw [joinSep, splitSep_append_sep (hall l (List.mem_cons_self l _))]
      rw [ih (List.cons_ne_nil l2 rest2)
        (fun x hx => hall x (List.mem_cons_of_mem l hx))]
      exact List.cons_ne_nil l2 rest2

lemma allContexts_no_newline : ∀ c ∈ generateAllContexts, '\n' ∉ c := by
  decide

lemma allContexts_length7 : ∀ c ∈ generateAllContexts, c.length = 7 := by
  decide

lemma header_no_newline : '\n' ∉ "Context\tCount".toList := by decide

/-- C4: splitting the rendered TSV on newlines yields the header line
followed by exactly one data row per canonical context, in catalog order,
each of the form `context TAB count` (absent counts render as 0 through the
`getD 0` in `tsvRow`); there are 192 data rows, and the row list is
duplicate-free, so every canonical context appears exactly once. -/
theorem tsvOutput_spec (ft mt : List Char) :
    splitSep '\n' (tsvOutput (appResults ft mt).counts) =
      "Context\tCount".toList ::
        generateAllContexts.map (tsvRow (appResults ft mt).counts) ∧
    (generateAllContexts.map (tsvRow (appResults ft mt).counts)).length = 192 ∧
    (generateAllContexts.map (tsvRow (appResults ft mt).counts)).Nodup := by
  refine ⟨?_, ?_, ?_⟩
  · unfold tsvOutput
    apply splitSep_joinSep (by simp)
    intro l hl
    rcases List.mem_cons.mp hl with rfl | hl2
    · exact header_no_newline
    · obtain ⟨ctx, hctx, rfl⟩ := List.mem_map.mp hl2
      unfold tsvRow
      intro hmem
      rw [List.mem_append] at hmem
      rcases hmem with h1 | h2
      · exact allContexts_no_newline ctx hctx h1
      · rcases List.mem_cons.mp h2 with he | h3
        · exact absurd he (by decide)
        · exact (natToChars_chars _ '\n' h3).1 rfl
  · rw [List.length_map, generateAllContexts_length]
  · apply List.Nodup.map_on ?_ generateAllContexts_nodup
    intro x hx y hy hxy
    have hlx : x.length = 7 := allContexts_length7 x hx
    have hly : y.length = 7 := allContexts_length7 y hy
    unfold tsvRow at hxy
    exact (List.append_inj hxy (by rw [hlx, hly])).1

end Contextualise
